import Mathlib

/-!
Shallow embedding of the Bizi usage-aggregation program (`pb_02_bizi.py`):
a sorted duplicate-free registry of per-user counters maintained by binary
search (`buscar` / `ubicar`), a streaming aggregation pass over parsed CSV
events (`convertir` / `obtener_usos_por_usuario_from_file`), and a partial
selection sort extracting the top-K users by total usage
(`buscar_indice_del_mayor` / `ordenar`).

Python strings are modelled as `List Char`; Python `int` as `Int`; the
mutable list of records as an explicit `List` threaded through each
operation; a raised exception (`IndexError` on a short record,
`ValueError` on a non-integer field) as `Option.none`.
-/

/-- Embeds the namedtuple `UsuarioBizi = (id, num_usos_traslado, num_usos_circular)`. -/
structure UsuarioBizi where
  id : Int
  num_usos_traslado : Nat
  num_usos_circular : Nat
deriving DecidableEq, Repr

/-- Default record used to make list indexing total; every indexing site is
used only under an in-bounds hypothesis, mirroring Python where an
out-of-bounds index would raise. -/
def dU : UsuarioBizi := ⟨0, 0, 0⟩

/-- Embeds the namedtuple `UsoBizi = (id_usuario, estacion_retirada, estacion_devolucion)`. -/
structure UsoBizi where
  id_usuario : Int
  estacion_retirada : Int
  estacion_devolucion : Int
deriving DecidableEq, Repr

/-- The field delimiter `DELIMITADOR = ";"`. -/
def DELIMITADOR : Char := ';'

/-- The `while inf < sup` loop of `buscar`, written with an explicit fuel so
that it is structurally recursive (hence kernel-computable): each iteration
strictly shrinks `sup - inf`, so fuel `sup - inf` is enough to run the loop
to its guard failing.  The body narrows `[inf, sup]` with
`med = (inf + sup) // 2`, moving `inf` to `med + 1` when
`id_usuario > usuarios[med].id` and `sup` down to `med` otherwise. -/
def buscarLoopF (usuarios : List UsuarioBizi) (id_usuario : Int) :
    Nat → Nat → Nat → Nat
  | 0, inf, _sup => inf
  | fuel + 1, inf, sup =>
    if inf < sup then
      let med := (inf + sup) / 2
      if id_usuario > (usuarios.getD med dU).id then
        buscarLoopF usuarios id_usuario fuel (med + 1) sup
      else
        buscarLoopF usuarios id_usuario fuel inf med
    else
      inf

/-- The `while inf < sup` loop of `buscar`, run with its exact fuel. -/
def buscarLoop (usuarios : List UsuarioBizi) (id_usuario : Int) (inf sup : Nat) : Nat :=
  buscarLoopF usuarios id_usuario (sup - inf) inf sup

/-- Embeds `buscar(usuarios, id_usuario)`: returns `(found, index)` where the
empty list yields `(False, 0)` and otherwise the binary-search loop runs on
`inf = 0`, `sup = len(usuarios) - 1` and the function returns
`(id_usuario == usuarios[inf].id, inf)`. -/
def buscar (usuarios : List UsuarioBizi) (id_usuario : Int) : Bool × Nat :=
  if usuarios.length = 0 then
    (false, 0)
  else
    let inf := buscarLoop usuarios id_usuario 0 (usuarios.length - 1)
    (id_usuario == (usuarios.getD inf dU).id, inf)

/-- Embeds `ubicar(usuarios, id_usuario)`: the Python function mutates the
list, so the embedding returns the updated list together with the returned
index.  The guard `posicion == len(usuarios) - 1 and id_usuario >
usuarios[posicion].id` is written `posicion + 1 = usuarios.length ∧ ...`,
which agrees with the Python condition on every reachable state (for the
empty list Python compares `0 == -1`, false; here `0 + 1 = 0`, false). -/
def ubicar (usuarios : List UsuarioBizi) (id_usuario : Int) : List UsuarioBizi × Nat :=
  let r := buscar usuarios id_usuario
  if r.1 then
    (usuarios, r.2)
  else
    let posicion :=
      if r.2 + 1 = usuarios.length ∧ id_usuario > (usuarios.getD r.2 dU).id then
        r.2 + 1
      else
        r.2
    (usuarios.insertIdx posicion ⟨id_usuario, 0, 0⟩, posicion)

/-- Embeds Python `linea.split(DELIMITADOR)` for the one-character delimiter:
splits at every occurrence, keeping empty fields; the empty string splits to
`[[]]`, matching `"".split(";") == [""]`. -/
def dividir (s : List Char) : List (List Char) :=
  match s with
  | [] => [[]]
  | c :: resto =>
    if c = DELIMITADOR then
      [] :: dividir resto
    else
      match dividir resto with
      | [] => [[c]]
      | campo :: campos => (c :: campo) :: campos

/-- Whitespace recognised when modelling `int(...)`'s argument stripping. -/
def esEspacio (c : Char) : Bool :=
  c = ' ' || c = '\n' || c = '\t' || c = '\r'

/-- Decimal digit test for the `int(...)` model. -/
def esDigito (c : Char) : Bool :=
  '0'.toNat ≤ c.toNat && c.toNat ≤ '9'.toNat

/-- Digits-only parse of a nonempty digit string, the core of the `int(...)` model. -/
def parseDigitos (s : List Char) : Option Nat :=
  match s with
  | [] => none
  | [c] => if esDigito c then some (c.toNat - '0'.toNat) else none
  | c :: resto =>
    if esDigito c then
      match parseDigitos resto with
      | none => none
      | some n => some ((c.toNat - '0'.toNat) * 10 ^ resto.length + n)
    else
      none

/-- Models Python `int(s)` on a string field: strips surrounding whitespace,
accepts an optional sign followed by one or more decimal digits, and raises
(`none`) otherwise. -/
def parseEntero (s : List Char) : Option Int :=
  let t := ((s.dropWhile esEspacio).reverse.dropWhile esEspacio).reverse
  match t with
  | '-' :: resto => (parseDigitos resto).map (fun n => -(n : Int))
  | '+' :: resto => (parseDigitos resto).map (fun n => (n : Int))
  | resto => (parseDigitos resto).map (fun n => (n : Int))

/-- Embeds `convertir(linea)`: splits the line on the delimiter and parses
fields 0, 2 and 4 as integers, in the order Python evaluates them; a missing
field (`IndexError`) or unparseable integer (`ValueError`) aborts with
`none`. -/
def convertir (linea : List Char) : Option UsoBizi := do
  let elementos := dividir linea
  let e0 ← elementos.get? 0
  let n0 ← parseEntero e0
  let e2 ← elementos.get? 2
  let n2 ← parseEntero e2
  let e4 ← elementos.get? 4
  let n4 ← parseEntero e4
  pure ⟨n0, n2, n4⟩

/-- Embeds `incrementar_traslados(usuario)`. -/
def incrementar_traslados (usuario : UsuarioBizi) : UsuarioBizi :=
  ⟨usuario.id, usuario.num_usos_traslado + 1, usuario.num_usos_circular⟩

/-- Embeds `incrementar_circulares(usuario)`. -/
def incrementar_circulares (usuario : UsuarioBizi) : UsuarioBizi :=
  ⟨usuario.id, usuario.num_usos_traslado, usuario.num_usos_circular + 1⟩

/-- Embeds `num_usos_totales(usuario)`. -/
def num_usos_totales (usuario : UsuarioBizi) : Nat :=
  usuario.num_usos_traslado + usuario.num_usos_circular

/-- One iteration of the aggregation loop body of
`obtener_usos_por_usuario_from_file`: locate or insert the user's record,
then replace it by its incremented copy, circular when the pickup and
return stations coincide, transit otherwise. -/
def procesarUso (usuarios : List UsuarioBizi) (uso : UsoBizi) : List UsuarioBizi :=
  let r := ubicar usuarios uso.id_usuario
  if uso.estacion_retirada == uso.estacion_devolucion then
    r.1.set r.2 (incrementar_circulares (r.1.getD r.2 dU))
  else
    r.1.set r.2 (incrementar_traslados (r.1.getD r.2 dU))

/-- The `for linea in f` loop of `obtener_usos_por_usuario_from_file`: each
line is converted and aggregated; the first malformed line raises, aborting
the whole pass (`none`) with no later line processed. -/
def procesarLineas (lineas : List (List Char)) (usuarios : List UsuarioBizi) :
    Option (List UsuarioBizi) :=
  match lineas with
  | [] => some usuarios
  | linea :: resto =>
    match convertir linea with
    | none => none
    | some uso => procesarLineas resto (procesarUso usuarios uso)

/-- Embeds `obtener_usos_por_usuario_from_file(f)`: the file is the list of
its lines; `f.readline()` discards the header line, then the loop
aggregates the remaining lines into an initially empty registry. -/
def obtener_usos_por_usuario_from_file (lineas : List (List Char)) :
    Option (List UsuarioBizi) :=
  procesarLineas (lineas.drop 1) []

/-- Embeds `buscar_indice_del_mayor(usuarios, indice_inicial)`: the
`for i in range(indice_inicial + 1, len(usuarios))` maximum scan, carrying
`(indice_del_mayor, usos_del_mayor)` and updating on strict `>` only. -/
def buscar_indice_del_mayor (usuarios : List UsuarioBizi) (indice_inicial : Nat) : Nat :=
  ((List.range' (indice_inicial + 1) (usuarios.length - (indice_inicial + 1))).foldl
    (fun acc i =>
      if num_usos_totales (usuarios.getD i dU) > acc.2 then
        (i, num_usos_totales (usuarios.getD i dU))
      else
        acc)
    (indice_inicial, num_usos_totales (usuarios.getD indice_inicial dU))).1

/-- The simultaneous swap `usuarios[i], usuarios[j] = usuarios[j], usuarios[i]`:
both old values are read before either position is written. -/
def intercambiar (l : List UsuarioBizi) (i j : Nat) : List UsuarioBizi :=
  (l.set i (l.getD j dU)).set j (l.getD i dU)

/-- Embeds `ordenar(usuarios, num_ordenar)`: the
`for i in range(0, min(num_ordenar, len(usuarios)))` selection loop, swapping
slot `i` with the left-most maximum of the suffix. -/
def ordenar (usuarios : List UsuarioBizi) (num_ordenar : Nat) : List UsuarioBizi :=
  (List.range' 0 (min num_ordenar usuarios.length)).foldl
    (fun l i => intercambiar l i (buscar_indice_del_mayor l i))
    usuarios

/-- The spec-side insertion point: the position of the first element whose
id is `≥` the searched id, or the length when the searched id exceeds every
element.  Stated from the specification's words, to be compared with what
`buscar` computes. -/
def puntoInsercion (l : List UsuarioBizi) (id_usuario : Int) : Nat :=
  match l with
  | [] => 0
  | u :: resto => if id_usuario ≤ u.id then 0 else puntoInsercion resto id_usuario + 1

/-- The registry invariant: strictly increasing by user id (hence duplicate-free). -/
def Ordenada (l : List UsuarioBizi) : Prop :=
  l.Pairwise (fun a b => a.id < b.id)

instance : DecidablePred Ordenada := fun l =>
  inferInstanceAs (Decidable (l.Pairwise _))

/-! ### Basic list toolkit -/

/-- Total usage summed over a registry. -/
def totalUsos (l : List UsuarioBizi) : Nat :=
  (l.map num_usos_totales).sum

theorem set_getD_self : ∀ (l : List UsuarioBizi) (i : Nat), l.set i (l.getD i dU) = l
  | [], _ => rfl
  | _ :: _, 0 => rfl
  | a :: l, i + 1 => congrArg (a :: ·) (set_getD_self l i)

theorem getD_set_self : ∀ (l : List UsuarioBizi) (i : Nat) (x : UsuarioBizi),
    i < l.length → (l.set i x).getD i dU = x
  | _ :: _, 0, _, _ => rfl
  | _ :: l, i + 1, x, h => getD_set_self l i x (Nat.lt_of_succ_lt_succ h)

theorem getD_set_ne : ∀ (l : List UsuarioBizi) (i j : Nat) (x : UsuarioBizi),
    i ≠ j → (l.set i x).getD j dU = l.getD j dU
  | [], _, _, _, _ => rfl
  | _ :: _, 0, 0, _, h => absurd rfl h
  | _ :: _, 0, _ + 1, _, _ => rfl
  | _ :: _, _ + 1, 0, _, _ => rfl
  | _ :: l, i + 1, j + 1, x, h =>
    getD_set_ne l i j x (fun hij => h (congrArg Nat.succ hij))

theorem totalUsos_set : ∀ (l : List UsuarioBizi) (i : Nat) (x : UsuarioBizi),
    i < l.length →
    totalUsos (l.set i x) + num_usos_totales (l.getD i dU) = totalUsos l + num_usos_totales x
  | a :: l, 0, x, _ => by
    simp [totalUsos]
    omega
  | a :: l, i + 1, x, h => by
    have ih := totalUsos_set l i x (Nat.lt_of_succ_lt_succ h)
    simp only [totalUsos, List.set_cons_succ, List.map_cons, List.sum_cons, List.getD_cons_succ]
    simp only [totalUsos] at ih
    omega

theorem getD_cons_perm : ∀ (l : List UsuarioBizi) (k : Nat) (a : UsuarioBizi),
    k < l.length → List.Perm ((l.getD k dU) :: l.set k a) (a :: l)
  | x :: l, 0, a, _ => List.Perm.swap a x l
  | x :: l, k + 1, a, h => by
    have ih := getD_cons_perm l k a (Nat.lt_of_succ_lt_succ h)
    simp only [List.getD_cons_succ, List.set_cons_succ]
    exact ((List.Perm.swap x (l.getD k dU) (l.set k a)).trans
      (List.Perm.cons x ih)).trans (List.Perm.swap a x l)

theorem swap_set_perm : ∀ (l : List UsuarioBizi) (i j : Nat),
    i < l.length → j < l.length →
    List.Perm ((l.set i (l.getD j dU)).set j (l.getD i dU)) l
  | a :: t, 0, 0, _, _ => by
    simp only [List.getD_cons_zero, List.set_cons_zero]
    exact List.Perm.refl _
  | a :: t, 0, m + 1, _, hj => by
    simp only [List.getD_cons_zero, List.getD_cons_succ, List.set_cons_zero,
      List.set_cons_succ]
    exact getD_cons_perm t m a (Nat.lt_of_succ_lt_succ hj)
  | a :: t, k + 1, 0, hi, _ => by
    simp only [List.getD_cons_zero, List.getD_cons_succ, List.set_cons_zero,
      List.set_cons_succ]
    exact getD_cons_perm t k a (Nat.lt_of_succ_lt_succ hi)
  | a :: t, k + 1, m + 1, hi, hj => by
    simp only [List.getD_cons_succ, List.set_cons_succ]
    exact List.Perm.cons a
      (swap_set_perm t k m (Nat.lt_of_succ_lt_succ hi) (Nat.lt_of_succ_lt_succ hj))

theorem intercambiar_perm (l : List UsuarioBizi) (i j : Nat)
    (hi : i < l.length) (hj : j < l.length) : List.Perm (intercambiar l i j) l :=
  swap_set_perm l i j hi hj

theorem length_intercambiar (l : List UsuarioBizi) (i j : Nat) :
    (intercambiar l i j).length = l.length := by
  simp [intercambiar]

theorem getD_intercambiar_fst (l : List UsuarioBizi) (i j : Nat) (hj : j < l.length) :
    (intercambiar l i j).getD j dU = l.getD i dU := by
  unfold intercambiar
  exact getD_set_self _ j _ (by simpa using hj)

theorem getD_intercambiar_snd (l : List UsuarioBizi) (i j : Nat)
    (hi : i < l.length) (hne : i ≠ j) : (intercambiar l i j).getD i dU = l.getD j dU := by
  unfold intercambiar
  rw [getD_set_ne _ j i _ (fun h => hne h.symm)]
  exact getD_set_self _ i _ hi

theorem getD_intercambiar_other (l : List UsuarioBizi) (i j m : Nat)
    (hmi : m ≠ i) (hmj : m ≠ j) : (intercambiar l i j).getD m dU = l.getD m dU := by
  unfold intercambiar
  rw [getD_set_ne _ j m _ (fun h => hmj h.symm), getD_set_ne _ i m _ (fun h => hmi h.symm)]

/-! ### Insertion-point lemmas -/

theorem puntoInsercion_le_length (l : List UsuarioBizi) (id_usuario : Int) :
    puntoInsercion l id_usuario ≤ l.length := by
  induction l with
  | nil => simp [puntoInsercion]
  | cons u resto ih =>
    simp only [puntoInsercion, List.length_cons]
    split
    · omega
    · omega

theorem lt_puntoInsercion (l : List UsuarioBizi) (id_usuario : Int) :
    ∀ j, j < puntoInsercion l id_usuario → (l.getD j dU).id < id_usuario := by
  induction l with
  | nil => intro j hj; simp [puntoInsercion] at hj
  | cons u resto ih =>
    intro j hj
    simp only [puntoInsercion] at hj
    by_cases h : id_usuario ≤ u.id
    · simp [h] at hj
    · rw [if_neg h] at hj
      match j with
      | 0 => simpa using Int.lt_of_not_ge h
      | j + 1 => exact ih j (by omega)

theorem le_id_puntoInsercion (l : List UsuarioBizi) (id_usuario : Int)
    (h : puntoInsercion l id_usuario < l.length) :
    id_usuario ≤ (l.getD (puntoInsercion l id_usuario) dU).id := by
  induction l with
  | nil => simp [puntoInsercion] at h
  | cons u resto ih =>
    simp only [puntoInsercion] at h ⊢
    by_cases hc : id_usuario ≤ u.id
    · simp [hc]
    · rw [if_neg hc] at h ⊢
      simpa using ih (by simpa using Nat.lt_of_succ_lt_succ (by simpa using h))

theorem puntoInsercion_le (l : List UsuarioBizi) (id_usuario : Int) :
    ∀ m, m < l.length → id_usuario ≤ (l.getD m dU).id →
    puntoInsercion l id_usuario ≤ m := by
  induction l with
  | nil => intro m hm; simp at hm
  | cons u resto ih =>
    intro m hm hle
    simp only [puntoInsercion]
    by_cases hc : id_usuario ≤ u.id
    · simp [hc]
    · rw [if_neg hc]
      match m with
      | 0 => exact absurd (by simpa using hle) hc
      | m + 1 =>
        have := ih m (by simpa using Nat.lt_of_succ_lt_succ hm) (by simpa using hle)
        omega

theorem ids_mono (l : List UsuarioBizi) (hs : Ordenada l) :
    ∀ i j, i ≤ j → j < l.length → (l.getD i dU).id ≤ (l.getD j dU).id := by
  intro i j hij hj
  rcases Nat.lt_or_ge i j with h | h
  · have := (List.pairwise_iff_getElem.mp hs) i j (by omega) hj h
    rw [List.getD_eq_getElem l dU (by omega), List.getD_eq_getElem l dU hj]
    exact Int.le_of_lt this
  · have : i = j := by omega
    subst this
    exact Int.le_refl _

/-! ### Binary-search characterization -/

theorem buscarLoopF_bounds (l : List UsuarioBizi) (id_usuario : Int) :
    ∀ fuel inf sup, inf ≤ sup →
    inf ≤ buscarLoopF l id_usuario fuel inf sup ∧
    buscarLoopF l id_usuario fuel inf sup ≤ sup := by
  intro fuel
  induction fuel with
  | zero => intro inf sup h; simp [buscarLoopF, h]
  | succ fuel ih =>
    intro inf sup h
    simp only [buscarLoopF]
    split
    · next hlt =>
      have hmed₁ : inf ≤ (inf + sup) / 2 := by
        rw [Nat.le_div_iff_mul_le (by norm_num)]
        omega
      have hmed₂ : (inf + sup) / 2 < sup := by
        rw [Nat.div_lt_iff_lt_mul (by norm_num)]
        omega
      split
      · have := ih ((inf + sup) / 2 + 1) sup (by omega)
        omega
      · have := ih inf ((inf + sup) / 2) (by omega)
        omega
    · omega

/-- What `buscar` actually computes on a sorted list: the insertion point
clamped to the last valid index. -/
theorem buscarLoopF_eq (l : List UsuarioBizi) (id_usuario : Int) (hs : Ordenada l) :
    ∀ fuel inf sup, sup - inf ≤ fuel → sup < l.length →
    inf ≤ min (puntoInsercion l id_usuario) (l.length - 1) →
    min (puntoInsercion l id_usuario) (l.length - 1) ≤ sup →
    buscarLoopF l id_usuario fuel inf sup =
      min (puntoInsercion l id_usuario) (l.length - 1) := by
  intro fuel
  induction fuel with
  | zero =>
    intro inf sup hfuel _ h₁ h₂
    simp only [buscarLoopF]
    omega
  | succ fuel ih =>
    intro inf sup hfuel hsup h₁ h₂
    simp only [buscarLoopF]
    split
    · next hlt =>
      have hmed₁ : inf ≤ (inf + sup) / 2 := by
        rw [Nat.le_div_iff_mul_le (by norm_num)]
        omega
      have hmed₂ : (inf + sup) / 2 < sup := by
        rw [Nat.div_lt_iff_lt_mul (by norm_num)]
        omega
      split
      · next hgt =>
        -- id exceeds the middle element, so the insertion point is beyond it
        have hpi : (inf + sup) / 2 < puntoInsercion l id_usuario := by
          by_contra hle
          push_neg at hle
          have hlt' : puntoInsercion l id_usuario < l.length := by omega
          have h₃ := le_id_puntoInsercion l id_usuario hlt'
          have h₄ := ids_mono l hs (puntoInsercion l id_usuario) ((inf + sup) / 2)
            hle (by omega)
          omega
        exact ih ((inf + sup) / 2 + 1) sup (by omega) hsup (by omega) h₂
      · next hng =>
        -- id does not exceed the middle element, so the point is at or before it
        have hpi : puntoInsercion l id_usuario ≤ (inf + sup) / 2 := by
          by_contra hgt'
          push_neg at hgt'
          have := lt_puntoInsercion l id_usuario ((inf + sup) / 2) hgt'
          omega
        exact ih inf ((inf + sup) / 2) (by omega) (by omega) h₁ (by omega)
    · omega

theorem buscar_not_found (l : List UsuarioBizi) (id_usuario : Int) (hs : Ordenada l)
    (habs : ∀ u ∈ l, u.id ≠ id_usuario) :
    buscar l id_usuario = (false, min (puntoInsercion l id_usuario) (l.length - 1)) := by
  match l, hs with
  | [], _ => simp [buscar, puntoInsercion]
  | u :: resto, hs =>
    unfold buscar
    rw [if_neg (by simp)]
    have hlen : 0 < (u :: resto).length := by simp
    have hK₁ : min (puntoInsercion (u :: resto) id_usuario) ((u :: resto).length - 1) ≤
        (u :: resto).length - 1 := Nat.min_le_right _ _
    have heq := buscarLoopF_eq (u :: resto) id_usuario hs ((u :: resto).length - 1 - 0)
      0 ((u :: resto).length - 1) (by omega) (by omega) (by omega) hK₁
    unfold buscarLoop
    rw [heq]
    have hKlt : min (puntoInsercion (u :: resto) id_usuario) ((u :: resto).length - 1) <
        (u :: resto).length := by omega
    have hmem : (u :: resto).getD
        (min (puntoInsercion (u :: resto) id_usuario) ((u :: resto).length - 1)) dU ∈
        u :: resto := by
      rw [List.getD_eq_getElem _ dU hKlt]
      exact List.getElem_mem _
    have hne := habs _ hmem
    simp only [Prod.mk.injEq]
    refine ⟨?_, trivial⟩
    rw [beq_eq_false_iff_ne]
    exact fun h => hne h.symm

theorem buscar_found (l : List UsuarioBizi) (id_usuario : Int) (m : Nat) (hs : Ordenada l)
    (hm : m < l.length) (heq : (l.getD m dU).id = id_usuario) :
    buscar l id_usuario = (true, m) := by
  have hpi : puntoInsercion l id_usuario = m := by
    have h₁ : puntoInsercion l id_usuario ≤ m :=
      puntoInsercion_le l id_usuario m hm (by omega)
    rcases Nat.lt_or_ge (puntoInsercion l id_usuario) m with h₂ | h₂
    · exfalso
      have h₃ := le_id_puntoInsercion l id_usuario (by omega)
      have h₄ := List.pairwise_iff_getElem.mp hs (puntoInsercion l id_usuario) m
        (by omega) hm h₂
      rw [← List.getD_eq_getElem l dU (show puntoInsercion l id_usuario < l.length by omega),
        ← List.getD_eq_getElem l dU hm] at h₄
      omega
    · omega
  unfold buscar
  rw [if_neg (by omega)]
  unfold buscarLoop
  have heqL := buscarLoopF_eq l id_usuario hs (l.length - 1 - 0) 0 (l.length - 1)
    (by omega) (by omega) (by omega) (by omega)
  rw [heqL, hpi]
  have hmin : min m (l.length - 1) = m := by omega
  rw [hmin]
  simp only [Prod.mk.injEq]
  refine ⟨?_, trivial⟩
  rw [heq, beq_self_eq_true]

/-! ### Characterization of `ubicar` on a sorted registry -/

theorem ubicar_found (l : List UsuarioBizi) (id_usuario : Int) (m : Nat) (hs : Ordenada l)
    (hm : m < l.length) (heq : (l.getD m dU).id = id_usuario) :
    ubicar l id_usuario = (l, m) := by
  unfold ubicar
  rw [buscar_found l id_usuario m hs hm heq]
  rfl

theorem ubicar_not_found (l : List UsuarioBizi) (id_usuario : Int) (hs : Ordenada l)
    (habs : ∀ u ∈ l, u.id ≠ id_usuario) :
    ubicar l id_usuario =
      (l.insertIdx (puntoInsercion l id_usuario) ⟨id_usuario, 0, 0⟩,
       puntoInsercion l id_usuario) := by
  unfold ubicar
  rw [buscar_not_found l id_usuario hs habs]
  simp only [if_neg Bool.false_ne_true]
  rcases List.eq_nil_or_concat l with hnil | ⟨_, _, hcons⟩
  · subst hnil
    simp [puntoInsercion]
  · have hlen : 0 < l.length := by
      subst hcons
      simp
    have hpile := puntoInsercion_le_length l id_usuario
    rcases Nat.lt_or_ge (puntoInsercion l id_usuario) l.length with hlt | hge
    · -- insertion point strictly inside: the append guard is false
      have hmin : min (puntoInsercion l id_usuario) (l.length - 1) =
          puntoInsercion l id_usuario := by omega
      rw [hmin]
      have hguard : ¬(puntoInsercion l id_usuario + 1 = l.length ∧
          id_usuario > (l.getD (puntoInsercion l id_usuario) dU).id) := by
        intro ⟨_, hgt⟩
        exact absurd (le_id_puntoInsercion l id_usuario hlt) (by omega)
      rw [if_neg hguard]
    · -- the id exceeds every element: the guard bumps the index to the length
      have hpi : puntoInsercion l id_usuario = l.length := by omega
      have hmin : min (puntoInsercion l id_usuario) (l.length - 1) = l.length - 1 := by
        omega
      rw [hmin]
      have hguard : l.length - 1 + 1 = l.length ∧
          id_usuario > (l.getD (l.length - 1) dU).id := by
        refine ⟨by omega, ?_⟩
        have := lt_puntoInsercion l id_usuario (l.length - 1) (by omega)
        omega
      rw [if_pos hguard]
      have : l.length - 1 + 1 = puntoInsercion l id_usuario := by omega
      rw [this]

/-- Inserting an absent id at its insertion point preserves strict sortedness. -/
theorem insertIdx_puntoInsercion_ordenada (l : List UsuarioBizi) (id_usuario : Int)
    (hs : Ordenada l) (habs : ∀ u ∈ l, u.id ≠ id_usuario) :
    Ordenada (l.insertIdx (puntoInsercion l id_usuario) ⟨id_usuario, 0, 0⟩) := by
  induction l with
  | nil =>
    simp only [puntoInsercion, List.insertIdx_zero]
    exact List.pairwise_singleton _ _
  | cons u resto ih =>
    have hsu : Ordenada resto := (List.pairwise_cons.mp hs).2
    have hu : ∀ v ∈ resto, u.id < v.id := (List.pairwise_cons.mp hs).1
    simp only [puntoInsercion]
    by_cases hc : id_usuario ≤ u.id
    · rw [if_pos hc, List.insertIdx_zero]
      refine List.pairwise_cons.mpr ⟨?_, hs⟩
      intro v hv
      have hne : u.id ≠ id_usuario := habs u (by simp)
      have hlt : id_usuario < u.id := by omega
      rcases List.mem_cons.mp hv with hvu | hvr
      · subst hvu
        simpa using hlt
      · have := hu v hvr
        simpa using (by omega : id_usuario < v.id)
    · rw [if_neg hc, List.insertIdx_succ_cons]
      refine List.pairwise_cons.mpr ⟨?_, ih hsu (fun v hv => habs v (by simp [hv]))⟩
      intro v hv
      have hmem := (List.mem_insertIdx (puntoInsercion_le_length resto id_usuario)).mp hv
      rcases hmem with hvx | hvr
      · subst hvx
        simpa using Int.lt_of_not_ge hc
      · exact hu v hvr

theorem getD_insertIdx_puntoInsercion (l : List UsuarioBizi) (id_usuario : Int)
    (x : UsuarioBizi) :
    (l.insertIdx (puntoInsercion l id_usuario) x).getD (puntoInsercion l id_usuario) dU
      = x := by
  have hle := puntoInsercion_le_length l id_usuario
  have hlt : puntoInsercion l id_usuario <
      (l.insertIdx (puntoInsercion l id_usuario) x).length := by
    rw [List.length_insertIdx _ _ hle]
    omega
  rw [List.getD_eq_getElem _ dU hlt]
  exact List.getElem_insertIdx_self l x _ hle

/-! ### Frame facts about `ubicar` that hold on any registry -/

theorem buscar_snd_le (l : List UsuarioBizi) (id_usuario : Int) :
    (buscar l id_usuario).2 ≤ l.length - 1 := by
  have hb := buscarLoopF_bounds l id_usuario (l.length - 1 - 0) 0 (l.length - 1)
    (by omega)
  simp only [buscar, buscarLoop]
  split
  · simp
  · simpa using hb.2

theorem buscar_empty (id_usuario : Int) : buscar [] id_usuario = (false, 0) := rfl

/-- `ubicar` with its local bindings expanded. -/
theorem ubicar_eq (l : List UsuarioBizi) (id_usuario : Int) :
    ubicar l id_usuario =
      if (buscar l id_usuario).1 = true then
        (l, (buscar l id_usuario).2)
      else
        (l.insertIdx
          (if (buscar l id_usuario).2 + 1 = l.length ∧
              id_usuario > (l.getD (buscar l id_usuario).2 dU).id then
            (buscar l id_usuario).2 + 1
          else
            (buscar l id_usuario).2) ⟨id_usuario, 0, 0⟩,
         if (buscar l id_usuario).2 + 1 = l.length ∧
              id_usuario > (l.getD (buscar l id_usuario).2 dU).id then
            (buscar l id_usuario).2 + 1
          else
            (buscar l id_usuario).2) := rfl

/-- `ubicar` either finds the user (registry untouched, in-bounds index) or
inserts the zero-usage record at some position `≤` the length. -/
theorem ubicar_cases (l : List UsuarioBizi) (id_usuario : Int) :
    ((ubicar l id_usuario).1 = l ∧ (ubicar l id_usuario).2 < l.length) ∨
    (∃ p, p ≤ l.length ∧
      (ubicar l id_usuario).1 = l.insertIdx p ⟨id_usuario, 0, 0⟩ ∧
      (ubicar l id_usuario).2 = p) := by
  have hle := buscar_snd_le l id_usuario
  cases hflag : (buscar l id_usuario).1 with
  | true =>
    left
    have hne : l ≠ [] := by
      intro hnil
      subst hnil
      rw [buscar_empty] at hflag
      simp at hflag
    have hlen : 0 < l.length := List.length_pos.mpr hne
    constructor
    · rw [ubicar_eq, hflag, if_pos rfl]
    · have h2 : (ubicar l id_usuario).2 = (buscar l id_usuario).2 := by
        rw [ubicar_eq, hflag, if_pos rfl]
      omega
  | false =>
    right
    by_cases hg : (buscar l id_usuario).2 + 1 = l.length ∧
        id_usuario > (l.getD (buscar l id_usuario).2 dU).id
    · refine ⟨(buscar l id_usuario).2 + 1, by omega, ?_, ?_⟩
      · rw [ubicar_eq, hflag, if_neg Bool.false_ne_true, if_pos hg]
      · rw [ubicar_eq, hflag, if_neg Bool.false_ne_true, if_pos hg]
    · refine ⟨(buscar l id_usuario).2, by omega, ?_, ?_⟩
      · rw [ubicar_eq, hflag, if_neg Bool.false_ne_true, if_neg hg]
      · rw [ubicar_eq, hflag, if_neg Bool.false_ne_true, if_neg hg]

theorem ubicar_index_lt (l : List UsuarioBizi) (id_usuario : Int) :
    (ubicar l id_usuario).2 < (ubicar l id_usuario).1.length := by
  rcases ubicar_cases l id_usuario with ⟨h₁, h₂⟩ | ⟨p, hp, h₁, h₂⟩
  · rw [h₁]
    exact h₂
  · rw [h₁, h₂, List.length_insertIdx _ _ hp]
    omega

theorem totalUsos_ubicar (l : List UsuarioBizi) (id_usuario : Int) :
    totalUsos (ubicar l id_usuario).1 = totalUsos l := by
  rcases ubicar_cases l id_usuario with ⟨h₁, _⟩ | ⟨p, hp, h₁, _⟩
  · rw [h₁]
  · rw [h₁]
    have hperm := (List.perm_insertIdx (⟨id_usuario, 0, 0⟩ : UsuarioBizi) l hp).map
      num_usos_totales
    have := hperm.sum_eq
    simpa [totalUsos, num_usos_totales] using this

theorem num_usos_totales_incrementar_circulares (u : UsuarioBizi) :
    num_usos_totales (incrementar_circulares u) = num_usos_totales u + 1 := by
  simp only [num_usos_totales, incrementar_circulares]
  omega

theorem num_usos_totales_incrementar_traslados (u : UsuarioBizi) :
    num_usos_totales (incrementar_traslados u) = num_usos_totales u + 1 := by
  simp only [num_usos_totales, incrementar_traslados]
  omega

theorem totalUsos_procesarUso (l : List UsuarioBizi) (uso : UsoBizi) :
    totalUsos (procesarUso l uso) = totalUsos l + 1 := by
  have hidx := ubicar_index_lt l uso.id_usuario
  have htot := totalUsos_ubicar l uso.id_usuario
  simp only [procesarUso]
  split
  · have hset := totalUsos_set (ubicar l uso.id_usuario).1 (ubicar l uso.id_usuario).2
      (incrementar_circulares ((ubicar l uso.id_usuario).1.getD
        (ubicar l uso.id_usuario).2 dU)) hidx
    rw [num_usos_totales_incrementar_circulares] at hset
    omega
  · have hset := totalUsos_set (ubicar l uso.id_usuario).1 (ubicar l uso.id_usuario).2
      (incrementar_traslados ((ubicar l uso.id_usuario).1.getD
        (ubicar l uso.id_usuario).2 dU)) hidx
    rw [num_usos_totales_incrementar_traslados] at hset
    omega

theorem procesarLineas_some_totalUsos :
    ∀ (lineas : List (List Char)) (usuarios r : List UsuarioBizi),
    procesarLineas lineas usuarios = some r →
    totalUsos r = totalUsos usuarios + lineas.length := by
  intro lineas
  induction lineas with
  | nil =>
    intro usuarios r h
    simp only [procesarLineas, Option.some.injEq] at h
    subst h
    simp
  | cons linea resto ih =>
    intro usuarios r h
    simp only [procesarLineas] at h
    match hconv : convertir linea with
    | none => rw [hconv] at h; exact absurd h (by simp)
    | some uso =>
      rw [hconv] at h
      have := ih (procesarUso usuarios uso) r h
      rw [totalUsos_procesarUso] at this
      simp only [List.length_cons]
      omega

/-! ### The maximum scan -/

/-- The running state of the `buscar_indice_del_mayor` scan over indices
`[s, s + n)`, starting from candidate `best` with recorded usage `usos`. -/
def bimFold (l : List UsuarioBizi) (s n best usos : Nat) : Nat × Nat :=
  (List.range' s n).foldl
    (fun acc i =>
      if num_usos_totales (l.getD i dU) > acc.2 then
        (i, num_usos_totales (l.getD i dU))
      else
        acc)
    (best, usos)

theorem buscar_indice_del_mayor_eq (l : List UsuarioBizi) (i0 : Nat) :
    buscar_indice_del_mayor l i0 =
      (bimFold l (i0 + 1) (l.length - (i0 + 1)) i0
        (num_usos_totales (l.getD i0 dU))).1 := rfl

theorem bimFold_zero (l : List UsuarioBizi) (s best usos : Nat) :
    bimFold l s 0 best usos = (best, usos) := rfl

theorem bimFold_succ (l : List UsuarioBizi) (s n best usos : Nat) :
    bimFold l s (n + 1) best usos =
      if num_usos_totales (l.getD s dU) > usos then
        bimFold l (s + 1) n s (num_usos_totales (l.getD s dU))
      else
        bimFold l (s + 1) n best usos := by
  unfold bimFold
  rw [List.range'_succ, List.foldl_cons]
  by_cases hc : num_usos_totales (l.getD s dU) > usos
  · rw [if_pos hc, if_pos hc]
  · rw [if_neg hc, if_neg hc]

theorem bimFold_spec (l : List UsuarioBizi) (i0 : Nat) :
    ∀ (n s best : Nat), i0 ≤ best → best < s → best < l.length → s + n ≤ l.length →
    (∀ m, i0 ≤ m → m < s →
      num_usos_totales (l.getD m dU) ≤ num_usos_totales (l.getD best dU)) →
    (∀ m, i0 ≤ m → m < best →
      num_usos_totales (l.getD m dU) < num_usos_totales (l.getD best dU)) →
    i0 ≤ (bimFold l s n best (num_usos_totales (l.getD best dU))).1 ∧
    (bimFold l s n best (num_usos_totales (l.getD best dU))).1 < l.length ∧
    (∀ m, i0 ≤ m → m < s + n →
      num_usos_totales (l.getD m dU) ≤
      num_usos_totales (l.getD (bimFold l s n best
        (num_usos_totales (l.getD best dU))).1 dU)) ∧
    (∀ m, i0 ≤ m → m < (bimFold l s n best (num_usos_totales (l.getD best dU))).1 →
      num_usos_totales (l.getD m dU) <
      num_usos_totales (l.getD (bimFold l s n best
        (num_usos_totales (l.getD best dU))).1 dU)) := by
  intro n
  induction n with
  | zero =>
    intro s best h₀ h₁ h₂ h₃ inv₁ inv₂
    rw [bimFold_zero]
    exact ⟨h₀, h₂, fun m hm hm' => inv₁ m hm (by omega), inv₂⟩
  | succ n ih =>
    intro s best h₀ h₁ h₂ h₃ inv₁ inv₂
    rw [bimFold_succ]
    by_cases hc : num_usos_totales (l.getD s dU) > num_usos_totales (l.getD best dU)
    · rw [if_pos hc]
      have := ih (s + 1) s (by omega) (by omega) (by omega) (by omega)
        (fun m hm hm' => by
          rcases Nat.lt_or_ge m s with h | h
          · exact Nat.le_of_lt (Nat.lt_of_le_of_lt (inv₁ m hm h) hc)
          · have : m = s := by omega
            subst this
            exact Nat.le_refl _)
        (fun m hm hm' => Nat.lt_of_le_of_lt (inv₁ m hm hm') hc)
      rcases this with ⟨c₁, c₂, c₃, c₄⟩
      exact ⟨c₁, c₂, fun m hm hm' => c₃ m hm (by omega), c₄⟩
    · rw [if_neg hc]
      have := ih (s + 1) best h₀ (by omega) h₂ (by omega)
        (fun m hm hm' => by
          rcases Nat.lt_or_ge m s with h | h
          · exact inv₁ m hm h
          · have : m = s := by omega
            subst this
            omega)
        inv₂
      rcases this with ⟨c₁, c₂, c₃, c₄⟩
      exact ⟨c₁, c₂, fun m hm hm' => c₃ m hm (by omega), c₄⟩

/-- Specification of the maximum scan: it returns the left-most index of a
maximal `num_usos_totales` in `usuarios[indice_inicial:]`. -/
theorem buscar_indice_del_mayor_spec (l : List UsuarioBizi) (i0 : Nat)
    (h : i0 < l.length) :
    i0 ≤ buscar_indice_del_mayor l i0 ∧
    buscar_indice_del_mayor l i0 < l.length ∧
    (∀ m, i0 ≤ m → m < l.length →
      num_usos_totales (l.getD m dU) ≤
      num_usos_totales (l.getD (buscar_indice_del_mayor l i0) dU)) ∧
    (∀ m, i0 ≤ m → m < buscar_indice_del_mayor l i0 →
      num_usos_totales (l.getD m dU) <
      num_usos_totales (l.getD (buscar_indice_del_mayor l i0) dU)) := by
  have hlen : i0 + 1 + (l.length - (i0 + 1)) = l.length := by omega
  have := bimFold_spec l i0 (l.length - (i0 + 1)) (i0 + 1) i0 (Nat.le_refl i0)
    (by omega) h (by omega)
    (fun m hm hm' => by
      have : m = i0 := by omega
      subst this
      exact Nat.le_refl _)
    (fun m hm hm' => by omega)
  rw [buscar_indice_del_mayor_eq]
  rcases this with ⟨c₁, c₂, c₃, c₄⟩
  exact ⟨c₁, c₂, fun m hm hm' => c₃ m hm (by omega), c₄⟩

/-! ### The partial selection sort -/

/-- The selection loop of `ordenar`, running over slots `[s, s + n)`. -/
def seleccionFold (l : List UsuarioBizi) (s n : Nat) : List UsuarioBizi :=
  (List.range' s n).foldl
    (fun l' i => intercambiar l' i (buscar_indice_del_mayor l' i))
    l

theorem ordenar_eq (l : List UsuarioBizi) (k : Nat) :
    ordenar l k = seleccionFold l 0 (min k l.length) := rfl

theorem seleccionFold_zero (l : List UsuarioBizi) (s : Nat) :
    seleccionFold l s 0 = l := rfl

theorem seleccionFold_succ (l : List UsuarioBizi) (s n : Nat) :
    seleccionFold l s (n + 1) =
      seleccionFold (intercambiar l s (buscar_indice_del_mayor l s)) (s + 1) n := by
  unfold seleccionFold
  rw [List.range'_succ, List.foldl_cons]

/-- Main invariant of the selection loop: it preserves the length, permutes
the registry, and extends the sorted-and-dominating prefix from `s` to
`s + n`. -/
theorem seleccionFold_spec (N : Nat) :
    ∀ (n s : Nat) (l : List UsuarioBizi), l.length = N → s + n ≤ N →
    (∀ p q, p < s → p < q → q < N →
      num_usos_totales (l.getD q dU) ≤ num_usos_totales (l.getD p dU)) →
    (seleccionFold l s n).length = N ∧
    List.Perm (seleccionFold l s n) l ∧
    (∀ p q, p < s + n → p < q → q < N →
      num_usos_totales ((seleccionFold l s n).getD q dU) ≤
      num_usos_totales ((seleccionFold l s n).getD p dU)) := by
  intro n
  induction n with
  | zero =>
    intro s l hlen hsn hpre
    rw [seleccionFold_zero]
    exact ⟨hlen, List.Perm.refl l, fun p q hp => hpre p q (by omega)⟩
  | succ n ih =>
    intro s l hlen hsn hpre
    have hsN : s < N := by omega
    have hbim := buscar_indice_del_mayor_spec l s (by omega)
    rcases hbim with ⟨hj₁, hj₂, hj₃, hj₄⟩
    set j := buscar_indice_del_mayor l s with hj
    have hperm₁ : List.Perm (intercambiar l s j) l :=
      intercambiar_perm l s j (by omega) hj₂
    have hlen₁ : (intercambiar l s j).length = N := by
      rw [length_intercambiar]
      exact hlen
    -- values of the swapped list
    have hval_s : (intercambiar l s j).getD s dU = l.getD j dU := by
      by_cases hsj : s = j
      · rw [hsj]
        exact getD_intercambiar_fst l j j hj₂
      · exact getD_intercambiar_snd l s j (by omega) hsj
    have hval_j : (intercambiar l s j).getD j dU = l.getD s dU :=
      getD_intercambiar_fst l s j hj₂
    have hval_other : ∀ m, m ≠ s → m ≠ j →
        (intercambiar l s j).getD m dU = l.getD m dU :=
      fun m hms hmj => getD_intercambiar_other l s j m hms hmj
    -- the prefix hypothesis advances to s + 1
    have hpre₁ : ∀ p q, p < s + 1 → p < q → q < N →
        num_usos_totales ((intercambiar l s j).getD q dU) ≤
        num_usos_totales ((intercambiar l s j).getD p dU) := by
      intro p q hp hpq hq
      rcases Nat.lt_or_ge p s with hps | hps
      · -- p is strictly below the fixed prefix boundary: old values apply
        have hpv : (intercambiar l s j).getD p dU = l.getD p dU :=
          hval_other p (by omega) (by omega)
        rw [hpv]
        by_cases hqj : q = j
        · subst hqj
          rw [hval_j]
          exact hpre p s hps (by omega) (by omega)
        · by_cases hqs : q = s
          · subst hqs
            rw [hval_s]
            exact hpre p j hps (by omega) (by omega)
          · rw [hval_other q hqs hqj]
            exact hpre p q hps hpq hq
      · -- p = s: the new slot value is the suffix maximum
        have hpeq : p = s := by omega
        subst hpeq
        rw [hval_s]
        by_cases hqj : q = j
        · subst hqj
          rw [hval_j]
          exact hj₃ p (Nat.le_refl p) (by omega)
        · rw [hval_other q (by omega) hqj]
          exact hj₃ q (by omega) (by omega)
    have := ih (s + 1) (intercambiar l s j) hlen₁ (by omega) hpre₁
    rcases this with ⟨c₁, c₂, c₃⟩
    rw [seleccionFold_succ]
    refine ⟨c₁, c₂.trans hperm₁, ?_⟩
    intro p q hp hpq hq
    exact c₃ p q (by omega) hpq hq

/-! ### Shared consequences used by several claims -/

theorem ubicar_getD_id (l : List UsuarioBizi) (id_usuario : Int) (hs : Ordenada l) :
    ((ubicar l id_usuario).1.getD (ubicar l id_usuario).2 dU).id = id_usuario := by
  by_cases hex : ∀ u ∈ l, u.id ≠ id_usuario
  · rw [ubicar_not_found l id_usuario hs hex]
    rw [getD_insertIdx_puntoInsercion]
  · push_neg at hex
    obtain ⟨u, hu, hid⟩ := hex
    obtain ⟨m, hm, hgm⟩ := List.getElem_of_mem hu
    have heq : (l.getD m dU).id = id_usuario := by
      rw [List.getD_eq_getElem l dU hm, hgm, hid]
    rw [ubicar_found l id_usuario m hs hm heq]
    exact heq

theorem procesarUso_eq_circular (l : List UsuarioBizi) (uso : UsoBizi)
    (h : uso.estacion_retirada = uso.estacion_devolucion) :
    procesarUso l uso =
      (ubicar l uso.id_usuario).1.set (ubicar l uso.id_usuario).2
        (incrementar_circulares
          ((ubicar l uso.id_usuario).1.getD (ubicar l uso.id_usuario).2 dU)) := by
  simp only [procesarUso]
  rw [if_pos (beq_iff_eq.mpr h)]

theorem procesarUso_eq_traslado (l : List UsuarioBizi) (uso : UsoBizi)
    (h : uso.estacion_retirada ≠ uso.estacion_devolucion) :
    procesarUso l uso =
      (ubicar l uso.id_usuario).1.set (ubicar l uso.id_usuario).2
        (incrementar_traslados
          ((ubicar l uso.id_usuario).1.getD (ubicar l uso.id_usuario).2 dU)) := by
  simp only [procesarUso]
  rw [if_neg (fun hc => h (beq_iff_eq.mp hc))]

theorem procesarLineas_malformada :
    ∀ (pre : List (List Char)) (mal : List Char) (post : List (List Char))
      (usuarios : List UsuarioBizi),
    (∀ li ∈ pre, (convertir li).isSome) → convertir mal = none →
    procesarLineas (pre ++ mal :: post) usuarios = none := by
  intro pre
  induction pre with
  | nil =>
    intro mal post usuarios _ hmal
    simp only [List.nil_append, procesarLineas, hmal]
  | cons linea resto ih =>
    intro mal post usuarios hpre hmal
    have hsome : (convertir linea).isSome := hpre linea (by simp)
    obtain ⟨uso, huso⟩ := Option.isSome_iff_exists.mp hsome
    simp only [List.cons_append, procesarLineas, huso]
    exact ih mal post (procesarUso usuarios uso)
      (fun li hli => hpre li (by simp [hli])) hmal

/-! ### Claims -/

/-- C1 counterexample: on the strictly increasing registry `[{id := 5}]` and
the absent id `7` (which exceeds every id in the list), `buscar` does NOT
return the insertion point `1 = length` claimed by the specification; it
returns index `0`, the last valid index. -/
theorem C1_counterexample :
    Ordenada [(⟨5, 0, 0⟩ : UsuarioBizi)] ∧
    (∀ u ∈ [(⟨5, 0, 0⟩ : UsuarioBizi)], u.id ≠ 7) ∧
    buscar [(⟨5, 0, 0⟩ : UsuarioBizi)] 7 ≠ (false, 1) ∧
    buscar [(⟨5, 0, 0⟩ : UsuarioBizi)] 7 = (false, 0) := by
  refine ⟨by decide, by decide, by decide, by decide⟩

/-- C1 (amended): on a registry strictly increasing by id, `buscar` returns
`(true, m)` when the id sits at position `m`; when the id is absent it
returns `false` together with the insertion point (position of the first
element whose id is `≥` the searched id) CLAMPED to the last index
`length - 1` — in particular, when the searched id exceeds every id it
returns `length - 1`, not `length`; the caller `ubicar` compensates with
its append special case. -/
theorem C1_buscar_amended (l : List UsuarioBizi) (id_usuario : Int) (hs : Ordenada l) :
    ((∀ u ∈ l, u.id ≠ id_usuario) →
      buscar l id_usuario =
        (false, min (puntoInsercion l id_usuario) (l.length - 1))) ∧
    (∀ m, m < l.length → (l.getD m dU).id = id_usuario →
      buscar l id_usuario = (true, m)) :=
  ⟨fun habs => buscar_not_found l id_usuario hs habs,
   fun m hm heq => buscar_found l id_usuario m hs hm heq⟩

/-- C1 amended-claim witness at a concrete input. -/
theorem C1_buscar_amended_witness :
    buscar [(⟨5, 0, 0⟩ : UsuarioBizi)] 7 =
      (false, min (puntoInsercion [(⟨5, 0, 0⟩ : UsuarioBizi)] 7)
        ([(⟨5, 0, 0⟩ : UsuarioBizi)].length - 1)) :=
  (C1_buscar_amended [⟨5, 0, 0⟩] 7 (by decide)).1 (by decide)

/-- C2: one `ubicar` call on a registry strictly increasing by id (hence
duplicate-free) leaves it strictly increasing by id (hence duplicate-free);
iterating this gives the invariant for any sequence of calls. -/
theorem C2_ubicar_preserva_ordenada (l : List UsuarioBizi) (id_usuario : Int)
    (hs : Ordenada l) : Ordenada (ubicar l id_usuario).1 := by
  by_cases hex : ∀ u ∈ l, u.id ≠ id_usuario
  · rw [ubicar_not_found l id_usuario hs hex]
    exact insertIdx_puntoInsercion_ordenada l id_usuario hs hex
  · push_neg at hex
    obtain ⟨u, hu, hid⟩ := hex
    obtain ⟨m, hm, hgm⟩ := List.getElem_of_mem hu
    have heq : (l.getD m dU).id = id_usuario := by
      rw [List.getD_eq_getElem l dU hm, hgm, hid]
    rw [ubicar_found l id_usuario m hs hm heq]
    exact hs

/-- C2 witness at a concrete input. -/
theorem C2_ubicar_preserva_ordenada_witness :
    Ordenada (ubicar [(⟨1, 0, 0⟩ : UsuarioBizi), ⟨5, 0, 0⟩] 3).1 :=
  C2_ubicar_preserva_ordenada [⟨1, 0, 0⟩, ⟨5, 0, 0⟩] 3 (by decide)

/-- C3: on a strictly sorted duplicate-free registry, `ubicar` (a) returns the
existing index with the registry unchanged when the id is present, (b) inserts
the record `(id, 0, 0)` at the order-preserving insertion point (shifting the
tail right, which is what `List.insertIdx` does) and returns that index when
absent, and (c) in both cases the record at the returned index carries the
requested id. -/
theorem C3_ubicar_spec (l : List UsuarioBizi) (id_usuario : Int) (hs : Ordenada l) :
    (∀ m, m < l.length → (l.getD m dU).id = id_usuario →
      ubicar l id_usuario = (l, m)) ∧
    ((∀ u ∈ l, u.id ≠ id_usuario) →
      ubicar l id_usuario =
        (l.insertIdx (puntoInsercion l id_usuario) ⟨id_usuario, 0, 0⟩,
         puntoInsercion l id_usuario)) ∧
    ((ubicar l id_usuario).1.getD (ubicar l id_usuario).2 dU).id = id_usuario :=
  ⟨fun m hm heq => ubicar_found l id_usuario m hs hm heq,
   fun habs => ubicar_not_found l id_usuario hs habs,
   ubicar_getD_id l id_usuario hs⟩

/-- C3 witness at a concrete input: inserting id 9 past the end. -/
theorem C3_ubicar_spec_witness :
    ubicar [(⟨1, 0, 0⟩ : UsuarioBizi), ⟨5, 0, 0⟩] 9 =
      ([⟨1, 0, 0⟩, ⟨5, 0, 0⟩, ⟨9, 0, 0⟩], 2) := by
  rw [(C3_ubicar_spec [⟨1, 0, 0⟩, ⟨5, 0, 0⟩] 9 (by decide)).2.1 (by decide)]
  decide

/-- C4: whenever the aggregation pass succeeds, the sum of total usage over
the resulting registry equals the number of ingested events (the data lines
after the header). -/
theorem C4_conservacion (lineas : List (List Char)) (r : List UsuarioBizi)
    (h : obtener_usos_por_usuario_from_file lineas = some r) :
    totalUsos r = (lineas.drop 1).length := by
  have := procesarLineas_some_totalUsos (lineas.drop 1) [] r h
  simpa [totalUsos] using this

/-- C4 witness on a concrete three-event file. -/
theorem C4_conservacion_witness :
    totalUsos [(⟨10, 1, 1⟩ : UsuarioBizi), ⟨20, 0, 1⟩] =
      ((["Usuario".toList, "10;x;5;y;5".toList, "10;x;5;y;9".toList,
         "20;x;1;y;1".toList] : List (List Char)).drop 1).length :=
  C4_conservacion
    ["Usuario".toList, "10;x;5;y;5".toList, "10;x;5;y;9".toList, "20;x;1;y;1".toList]
    [⟨10, 1, 1⟩, ⟨20, 0, 1⟩] (by decide)

/-- C5: one aggregation step on a sorted registry resolves the record of the
event's user (same id), then — exactly when pickup equals return — bumps only
that record's circular counter by one, otherwise only its transit counter by
one, keeping the record's id and other counter, every other slot, and the
length unchanged. -/
theorem C5_paso_agregacion (l : List UsuarioBizi) (uso : UsoBizi)
    (hs : Ordenada l) :
    ((ubicar l uso.id_usuario).1.getD (ubicar l uso.id_usuario).2 dU).id
        = uso.id_usuario ∧
    (uso.estacion_retirada = uso.estacion_devolucion →
      (procesarUso l uso).getD (ubicar l uso.id_usuario).2 dU =
        ⟨((ubicar l uso.id_usuario).1.getD (ubicar l uso.id_usuario).2 dU).id,
         ((ubicar l uso.id_usuario).1.getD
           (ubicar l uso.id_usuario).2 dU).num_usos_traslado,
         ((ubicar l uso.id_usuario).1.getD
           (ubicar l uso.id_usuario).2 dU).num_usos_circular + 1⟩) ∧
    (uso.estacion_retirada ≠ uso.estacion_devolucion →
      (procesarUso l uso).getD (ubicar l uso.id_usuario).2 dU =
        ⟨((ubicar l uso.id_usuario).1.getD (ubicar l uso.id_usuario).2 dU).id,
         ((ubicar l uso.id_usuario).1.getD
           (ubicar l uso.id_usuario).2 dU).num_usos_traslado + 1,
         ((ubicar l uso.id_usuario).1.getD
           (ubicar l uso.id_usuario).2 dU).num_usos_circular⟩) ∧
    (∀ m, m ≠ (ubicar l uso.id_usuario).2 →
      (procesarUso l uso).getD m dU = (ubicar l uso.id_usuario).1.getD m dU) ∧
    (procesarUso l uso).length = (ubicar l uso.id_usuario).1.length := by
  have hidx := ubicar_index_lt l uso.id_usuario
  refine ⟨ubicar_getD_id l uso.id_usuario hs, ?_, ?_, ?_, ?_⟩
  · intro h
    rw [procesarUso_eq_circular l uso h, getD_set_self _ _ _ hidx]
    rfl
  · intro h
    rw [procesarUso_eq_traslado l uso h, getD_set_self _ _ _ hidx]
    rfl
  · intro m hm
    by_cases h : uso.estacion_retirada = uso.estacion_devolucion
    · rw [procesarUso_eq_circular l uso h,
        getD_set_ne _ _ _ _ (fun hh => hm hh.symm)]
    · rw [procesarUso_eq_traslado l uso h,
        getD_set_ne _ _ _ _ (fun hh => hm hh.symm)]
  · by_cases h : uso.estacion_retirada = uso.estacion_devolucion
    · rw [procesarUso_eq_circular l uso h, List.length_set]
    · rw [procesarUso_eq_traslado l uso h, List.length_set]

/-- C5 witness: a circular event for user 7 on the registry `[(7, 3, 1)]`. -/
theorem C5_paso_agregacion_witness :
    (procesarUso [(⟨7, 3, 1⟩ : UsuarioBizi)] ⟨7, 2, 2⟩).getD
      (ubicar [(⟨7, 3, 1⟩ : UsuarioBizi)] 7).2 dU =
    ⟨((ubicar [(⟨7, 3, 1⟩ : UsuarioBizi)] 7).1.getD
        (ubicar [(⟨7, 3, 1⟩ : UsuarioBizi)] 7).2 dU).id,
     ((ubicar [(⟨7, 3, 1⟩ : UsuarioBizi)] 7).1.getD
        (ubicar [(⟨7, 3, 1⟩ : UsuarioBizi)] 7).2 dU).num_usos_traslado,
     ((ubicar [(⟨7, 3, 1⟩ : UsuarioBizi)] 7).1.getD
        (ubicar [(⟨7, 3, 1⟩ : UsuarioBizi)] 7).2 dU).num_usos_circular + 1⟩ :=
  (C5_paso_agregacion [⟨7, 3, 1⟩] ⟨7, 2, 2⟩ (by decide)).2.1 (by decide)

/-- C6: `buscar_indice_del_mayor` returns an index `j` of `registry[i0..n)`
holding a maximal total usage, and every earlier index in the scanned range
holds a strictly smaller total — the left-most maximum wins ties. -/
theorem C6_maximo_izquierdo (l : List UsuarioBizi) (i0 : Nat) (h : i0 < l.length) :
    i0 ≤ buscar_indice_del_mayor l i0 ∧
    buscar_indice_del_mayor l i0 < l.length ∧
    (∀ m, i0 ≤ m → m < l.length →
      num_usos_totales (l.getD m dU) ≤
      num_usos_totales (l.getD (buscar_indice_del_mayor l i0) dU)) ∧
    (∀ m, i0 ≤ m → m < buscar_indice_del_mayor l i0 →
      num_usos_totales (l.getD m dU) <
      num_usos_totales (l.getD (buscar_indice_del_mayor l i0) dU)) :=
  buscar_indice_del_mayor_spec l i0 h

/-- C6 witness: with a tie between indices 1 and 2, the scan keeps index 1. -/
theorem C6_maximo_izquierdo_witness :
    0 ≤ buscar_indice_del_mayor [(⟨1, 2, 0⟩ : UsuarioBizi), ⟨2, 3, 0⟩, ⟨3, 3, 0⟩] 0 ∧
    buscar_indice_del_mayor [(⟨1, 2, 0⟩ : UsuarioBizi), ⟨2, 3, 0⟩, ⟨3, 3, 0⟩] 0 <
      [(⟨1, 2, 0⟩ : UsuarioBizi), ⟨2, 3, 0⟩, ⟨3, 3, 0⟩].length ∧
    buscar_indice_del_mayor [(⟨1, 2, 0⟩ : UsuarioBizi), ⟨2, 3, 0⟩, ⟨3, 3, 0⟩] 0 = 1 :=
  ⟨(C6_maximo_izquierdo [⟨1, 2, 0⟩, ⟨2, 3, 0⟩, ⟨3, 3, 0⟩] 0 (by decide)).1,
   (C6_maximo_izquierdo [⟨1, 2, 0⟩, ⟨2, 3, 0⟩, ⟨3, 3, 0⟩] 0 (by decide)).2.1,
   by decide⟩

/-- C7: after `ordenar`, every slot of the fixed prefix (length `min k n`)
carries a total usage `≥` that of every later slot; in particular the prefix
is sorted by non-increasing total usage, and slot `i` holds a maximum of what
occupied `registry[i..n)` when it was fixed. -/
theorem C7_ordenar_prefijo (l : List UsuarioBizi) (k : Nat) :
    ∀ p q, p < min k l.length → p < q → q < l.length →
      num_usos_totales ((ordenar l k).getD q dU) ≤
      num_usos_totales ((ordenar l k).getD p dU) := by
  intro p q hp hpq hq
  have hspec := seleccionFold_spec l.length (min k l.length) 0 l rfl (by omega)
    (fun p' q' hp' => absurd hp' (by omega))
  rw [ordenar_eq]
  exact hspec.2.2 p q (by omega) hpq hq

/-- C7 witness on a concrete three-record registry with `k = 2`. -/
theorem C7_ordenar_prefijo_witness :
    num_usos_totales ((ordenar [(⟨1, 1, 0⟩ : UsuarioBizi), ⟨2, 3, 0⟩, ⟨3, 2, 0⟩] 2).getD
      1 dU) ≤
    num_usos_totales ((ordenar [(⟨1, 1, 0⟩ : UsuarioBizi), ⟨2, 3, 0⟩, ⟨3, 2, 0⟩] 2).getD
      0 dU) :=
  C7_ordenar_prefijo [⟨1, 1, 0⟩, ⟨2, 3, 0⟩, ⟨3, 2, 0⟩] 2 0 1 (by decide) (by decide)
    (by decide)

/-- C8: `ordenar` is total and safe for every `k ≥ 0`, including `k > n`: it
preserves the length (fixing `min k n` slots), the inner maximum scan always
receives a start index within bounds and returns an index within bounds at or
after its start, and when `k ≥ n` the whole registry ends up ordered by the
selection rule. -/
theorem C8_ordenar_seguro (l : List UsuarioBizi) (k : Nat) :
    (ordenar l k).length = l.length ∧
    (∀ (l' : List UsuarioBizi) (i : Nat), i < l'.length →
      i ≤ buscar_indice_del_mayor l' i ∧ buscar_indice_del_mayor l' i < l'.length) ∧
    (l.length ≤ k → ∀ p q, p < q → q < l.length →
      num_usos_totales ((ordenar l k).getD q dU) ≤
      num_usos_totales ((ordenar l k).getD p dU)) := by
  have hspec := seleccionFold_spec l.length (min k l.length) 0 l rfl (by omega)
    (fun p' q' hp' => absurd hp' (by omega))
  refine ⟨by rw [ordenar_eq]; exact hspec.1, ?_, ?_⟩
  · intro l' i hi
    have := buscar_indice_del_mayor_spec l' i hi
    exact ⟨this.1, this.2.1⟩
  · intro hk p q hpq hq
    rw [ordenar_eq]
    exact hspec.2.2 p q (by omega) hpq hq

/-- C8 witness with `k = 5` exceeding the length 2. -/
theorem C8_ordenar_seguro_witness :
    (ordenar [(⟨1, 1, 0⟩ : UsuarioBizi), ⟨2, 3, 0⟩] 5).length = 2 ∧
    (0 ≤ buscar_indice_del_mayor [(⟨1, 1, 0⟩ : UsuarioBizi), ⟨2, 3, 0⟩] 0 ∧
      buscar_indice_del_mayor [(⟨1, 1, 0⟩ : UsuarioBizi), ⟨2, 3, 0⟩] 0 <
        [(⟨1, 1, 0⟩ : UsuarioBizi), ⟨2, 3, 0⟩].length) ∧
    num_usos_totales ((ordenar [(⟨1, 1, 0⟩ : UsuarioBizi), ⟨2, 3, 0⟩] 5).getD 1 dU) ≤
      num_usos_totales ((ordenar [(⟨1, 1, 0⟩ : UsuarioBizi), ⟨2, 3, 0⟩] 5).getD 0 dU) :=
  ⟨(C8_ordenar_seguro [⟨1, 1, 0⟩, ⟨2, 3, 0⟩] 5).1,
   (C8_ordenar_seguro [⟨1, 1, 0⟩, ⟨2, 3, 0⟩] 5).2.1 [⟨1, 1, 0⟩, ⟨2, 3, 0⟩] 0 (by decide),
   (C8_ordenar_seguro [⟨1, 1, 0⟩, ⟨2, 3, 0⟩] 5).2.2 (by decide) 0 1 (by decide)
     (by decide)⟩

/-- C9: a malformed record (wrong field count or non-integer id/station)
aborts the aggregation pass at that record: the failure propagates to the
caller as `none`, no registry is produced, and the result does not depend on
any record after the malformed one — no later record is processed and there
is no silent skipping. -/
theorem C9_malformada_aborta (cab : List Char) (pre : List (List Char))
    (mal : List Char) (hpre : ∀ li ∈ pre, (convertir li).isSome)
    (hmal : convertir mal = none) :
    ∀ post, obtener_usos_por_usuario_from_file (cab :: (pre ++ mal :: post)) = none := by
  intro post
  unfold obtener_usos_por_usuario_from_file
  simp only [List.drop_succ_cons, List.drop_zero]
  exact procesarLineas_malformada pre mal post [] hpre hmal

/-- C9 witness: a two-field record aborts the pass whatever follows it. -/
theorem C9_malformada_aborta_witness :
    obtener_usos_por_usuario_from_file
      ["Usuario".toList, "1;a;2;b;3".toList, "4;5".toList, "9;a;9;b;9".toList] = none :=
  C9_malformada_aborta "Usuario".toList ["1;a;2;b;3".toList] "4;5".toList
    (by decide) (by decide) ["9;a;9;b;9".toList]

/-- C10: `ordenar` only exchanges whole records between positions, so its
result is a permutation of the input registry — same length, same multiset of
records, no record's fields modified. -/
theorem C10_ordenar_permutacion (l : List UsuarioBizi) (k : Nat) :
    List.Perm (ordenar l k) l := by
  have hspec := seleccionFold_spec l.length (min k l.length) 0 l rfl (by omega)
    (fun p' q' hp' => absurd hp' (by omega))
  rw [ordenar_eq]
  exact hspec.2.1
